import Mathlib

/-!
Shallow embedding of the xdelta delta-compression library (src/lib.rs): the
rsync-style rolling checksum, the block signature index, the greedy delta
encoder and the patch decoder, together with theorems checking the
natural-language specification claims.

Bytes are modelled as natural numbers.  The u32 and u64 wrapping arithmetic of
the source is modelled with explicit remainders by 4294967296 (2 to the 32)
and 18446744073709551616 (2 to the 64).  The SHA-256 strong hash comes from
the external sha2 crate, which is not part of this repository; the source only
ever compares digests for equality, so the hash is modelled as an abstract
function parameter H, and claims that depend on collision freedom take
injectivity of H as a hypothesis, mirroring the claim wording, which assumes
digests of distinct byte sequences are distinct.
-/

namespace XDelta

/-- Error type of the library, translated from the XDeltaError enum in
src/lib.rs: a single InvalidArgument constructor carrying a message. -/
inductive XDeltaError where
  | InvalidArg : String → XDeltaError

/-- Rolling checksum state, translated from struct Rolling in src/lib.rs:
accumulators a and b (u32 in the source, kept below 2 to the 32 here by the
explicit remainders taken in every update) and the window length len (usize
in the source). -/
@[ext]
structure Rolling where
  a : Nat
  b : Nat
  len : Nat

/-- Loop body of Rolling::from_slice.  For the byte v at position i the source
runs a = a.wrapping_add(v) and b = b.wrapping_add(((buf.len() - i) as u32) * v)
where the cast and the u32 product and sums all wrap modulo 2 to the 32. -/
def Rolling.fromSliceAux (n : Nat) : List Nat → Nat → Nat → Nat → Rolling
  | [], _, a, b => ⟨a, b, n⟩
  | v :: rest, i, a, b =>
      Rolling.fromSliceAux n rest (i + 1) ((a + v) % 4294967296)
        ((b + (n - i) % 4294967296 * v % 4294967296) % 4294967296)

/-- Rolling::from_slice: fold the loop body over the buffer starting from
a = 0, b = 0, recording the window length. -/
def Rolling.fromSlice (buf : List Nat) : Rolling :=
  Rolling.fromSliceAux buf.length buf 0 0 0

/-- Rolling::roll: remove byte prev, add byte next.  The source computes in
u32: a = a.wrapping_sub(prev).wrapping_add(next), then
b = b.wrapping_sub((len as u32) * prev).wrapping_add(a).  Wrapping subtraction
x.wrapping_sub(y) on u32 values is modelled as (x + 4294967296 - y) mod
4294967296, and the wrapping product (len as u32) * prev as its remainder. -/
def Rolling.roll (st : Rolling) (prev next : Nat) : Rolling :=
  let a := ((st.a + 4294967296 - prev) % 4294967296 + next) % 4294967296
  let b := ((st.b + 4294967296 - st.len % 4294967296 * prev % 4294967296) % 4294967296
      + a) % 4294967296
  ⟨a, b, st.len⟩

/-- Rolling::chksum: the source computes ((b AND 0xffffffff) shifted left by
16, wrapping in u32) XOR (a AND 0xffff).  The AND with 0xffffffff and the u32
wrap of the shift are the remainders by 2 to the 32, and the AND with 0xffff
is the remainder by 2 to the 16. -/
def Rolling.chksum (st : Rolling) : Nat :=
  (st.b % 4294967296 * 65536 % 4294967296) ^^^ (st.a % 65536)

/-- Weighted byte sum named by the specification of the rolling checksum
accumulator b: the byte at absolute position i (the head of the list sits at
position i0) is weighted by n - i. -/
def wSumFrom (n : Nat) : Nat → List Nat → Nat
  | _, [] => 0
  | i, v :: rest => (n - i) * v + wSumFrom n (i + 1) rest

theorem mod_mul_mod_left (d v c : Nat) : d % c * v % c = d * v % c := by
  conv_lhs => rw [Nat.mul_mod]
  conv_rhs => rw [Nat.mul_mod]
  have h : d % c % c = d % c := Nat.mod_mod_of_dvd d dvd_rfl
  rw [h]

theorem fromSliceAux_spec (n : Nat) (l : List Nat) :
    ∀ (i a b : Nat), a < 4294967296 → b < 4294967296 →
      Rolling.fromSliceAux n l i a b =
        ⟨(a + l.sum) % 4294967296, (b + wSumFrom n i l) % 4294967296, n⟩ := by
  induction l with
  | nil =>
      intro i a b ha hb
      simp [Rolling.fromSliceAux, wSumFrom, Nat.mod_eq_of_lt ha, Nat.mod_eq_of_lt hb]
  | cons v rest ih =>
      intro i a b _ _
      rw [Rolling.fromSliceAux, ih _ _ _ (Nat.mod_lt _ (by norm_num)) (Nat.mod_lt _ (by norm_num))]
      rw [mod_mul_mod_left]
      simp only [List.sum_cons, wSumFrom, Rolling.mk.injEq]
      refine ⟨by omega, ?_, trivial⟩
      generalize (n - i) * v = Y
      omega

theorem fromSlice_spec (buf : List Nat) :
    Rolling.fromSlice buf =
      ⟨buf.sum % 4294967296, wSumFrom buf.length 0 buf % 4294967296, buf.length⟩ := by
  rw [Rolling.fromSlice, fromSliceAux_spec _ _ _ _ _ (by norm_num) (by norm_num)]
  simp

/-- Appending one element to the window adds it with the weight left at the
end of the existing run of weights. -/
theorem wSumFrom_append_single (n x : Nat) (t : List Nat) :
    ∀ i, wSumFrom n i (t ++ [x]) = wSumFrom n i t + (n - (i + t.length)) * x := by
  induction t with
  | nil => intro i; simp [wSumFrom]
  | cons u t ih =>
      intro i
      simp only [List.cons_append, wSumFrom, List.length_cons, List.append_eq]
      rw [ih (i + 1)]
      have h : n - (i + 1 + t.length) = n - (i + (t.length + 1)) := by omega
      rw [h]
      omega

/-- Shifting every weight down by one removes one copy of the plain sum, as
long as every weight stays nonnegative. -/
theorem wSumFrom_shift (n : Nat) (l : List Nat) :
    ∀ i, i + l.length ≤ n → wSumFrom n i l = wSumFrom n (i + 1) l + l.sum := by
  induction l with
  | nil => intro i _; simp [wSumFrom]
  | cons u t ih =>
      intro i h
      simp only [wSumFrom, List.sum_cons, List.length_cons] at *
      rw [ih (i + 1) (by omega)]
      have hw : n - i = (n - (i + 1)) + 1 := by omega
      rw [hw]
      ring

/-- C4: for every rolling-checksum state, chksum equals ((b mod 2 to the 16)
times 2 to the 16) XOR (a mod 2 to the 16): the bits of b shifted past
position 31 by the 16-bit shift are discarded by the u32 wrap, not folded
into the result. -/
theorem c4_chksum_formula (st : Rolling) :
    Rolling.chksum st = ((st.b % 2 ^ 16) * 2 ^ 16) ^^^ (st.a % 2 ^ 16) := by
  have h : st.b % 4294967296 * 65536 % 4294967296 = st.b % 65536 * 65536 := by omega
  rw [Rolling.chksum, h]
  norm_num

/-- C5: initializing over a window yields a equal to the byte sum mod 2 to
the 32 and b equal to the weighted sum (weight of position i is
window length minus i) mod 2 to the 32; sliding with removed byte prev and
added byte next yields a congruent to a - prev + next and b congruent to
b - len * prev + new a, both mod 2 to the 32. -/
theorem c5_rolling_contract (buf : List Nat) (st : Rolling) (prev next : Nat)
    (hprev : prev < 256) :
    (Rolling.fromSlice buf).a = buf.sum % 2 ^ 32 ∧
    (Rolling.fromSlice buf).b = wSumFrom buf.length 0 buf % 2 ^ 32 ∧
    ((Rolling.roll st prev next).a : Int) % 2 ^ 32
      = ((st.a : Int) - prev + next) % 2 ^ 32 ∧
    ((Rolling.roll st prev next).b : Int) % 2 ^ 32
      = ((st.b : Int) - (st.len : Int) * prev + ((Rolling.roll st prev next).a : Int))
          % 2 ^ 32 := by
  refine ⟨by rw [fromSlice_spec]; norm_num, by rw [fromSlice_spec]; norm_num, ?_, ?_⟩
  · simp only [Rolling.roll]
    norm_num
    omega
  · simp only [Rolling.roll]
    rw [mod_mul_mod_left]
    generalize hK : st.len * prev = K
    have hcast : (st.len : Int) * (prev : Int) = (K : Int) := by rw [← hK]; push_cast; ring
    rw [hcast]
    omega

theorem c5_rolling_contract_witness :
    (1 : Nat) < 256 ∧
    ((Rolling.fromSlice [3, 5]).a = [3, 5].sum % 2 ^ 32 ∧
     (Rolling.fromSlice [3, 5]).b = wSumFrom [3, 5].length 0 [3, 5] % 2 ^ 32 ∧
     ((Rolling.roll ⟨7, 9, 2⟩ 1 250).a : Int) % 2 ^ 32
       = (((7 : Nat) : Int) - 1 + 250) % 2 ^ 32 ∧
     ((Rolling.roll ⟨7, 9, 2⟩ 1 250).b : Int) % 2 ^ 32
       = (((9 : Nat) : Int) - ((2 : Nat) : Int) * 1 + ((Rolling.roll ⟨7, 9, 2⟩ 1 250).a : Int))
           % 2 ^ 32) :=
  ⟨by norm_num, c5_rolling_contract [3, 5] ⟨7, 9, 2⟩ 1 250 (by norm_num)⟩

/-- C10: sliding the state initialized over a nonempty window, removing its
first byte and adding x, gives exactly the state initialized from scratch
over the shifted window, with the recorded window length unchanged. -/
theorem c10_slide_coherent (v x : Nat) (t : List Nat) (hv : v < 256) :
    Rolling.roll (Rolling.fromSlice (v :: t)) v x = Rolling.fromSlice (t ++ [x]) := by
  have hn : (v :: t).length = t.length + 1 := by simp
  have hm : (t ++ [x]).length = t.length + 1 := by simp
  have hs : (v :: t).sum = v + t.sum := by simp
  have hsx : (t ++ [x]).sum = t.sum + x := by simp
  rw [fromSlice_spec, fromSlice_spec, hn, hm, hs, hsx]
  simp only [Rolling.roll]
  rw [Rolling.mk.injEq]
  refine ⟨?_, ?_, rfl⟩
  · generalize t.sum = s
    omega
  · rw [mod_mul_mod_left, wSumFrom_append_single]
    simp only [wSumFrom, Nat.sub_zero, Nat.zero_add]
    rw [wSumFrom_shift (t.length + 1) t 0 (by omega)]
    simp only [Nat.zero_add]
    have h1 : t.length + 1 - t.length = 1 := by omega
    rw [h1]
    generalize wSumFrom (t.length + 1) 1 t = W
    generalize (t.length + 1) * v = K
    generalize t.sum = s
    omega

theorem c10_slide_coherent_witness :
    (1 : Nat) < 256 ∧
    Rolling.roll (Rolling.fromSlice (1 :: [2])) 1 3 = Rolling.fromSlice ([2] ++ [3]) :=
  ⟨by norm_num, c10_slide_coherent 1 3 [2] (by norm_num)⟩

/-- Block signature entry, translated from struct SigEntry: the index of the
block inside the old buffer (u64 in the source) and the strong hash of the
block contents (a SHA-256 digest in the source, here the value of the
abstract hash function). -/
structure SigEntry where
  blockIndex : Nat
  strongHash : List Nat

/-- Loop of build_signatures: walk the old buffer in steps of block_size,
hashing each block old[offset .. min(offset + block_size, len)).  The loop
advances by block_size bytes per iteration, so a fuel of old.length bounds
its iteration count whenever block_size is at least 1.  When block_size = 0
and old is nonempty the source loop never terminates; the fuel variant then
stops early, returning a value that create_patch_bytes never looks at
because it rejects block_size = 0 first. -/
def blockSigsAux (H : List Nat → List Nat) (bs : Nat) :
    Nat → List Nat → Nat → List (Nat × SigEntry)
  | 0, _, _ => []
  | _, [], _ => []
  | fuel + 1, v :: old, idx =>
      let slice := (v :: old).take bs
      ((Rolling.fromSlice slice).chksum, ⟨idx, H slice⟩)
        :: blockSigsAux H bs fuel ((v :: old).drop bs) (idx + 1)

/-- build_signatures: the HashMap from weak checksum to the entries pushed
under it is modelled as the plain association list of (weak, entry) pairs in
block order; lookup is sigsGet below. -/
def build_signatures (H : List Nat → List Nat) (old : List Nat) (bs : Nat) :
    List (Nat × SigEntry) :=
  blockSigsAux H bs old.length old 0

/-- HashMap lookup sigs.get(weak): the entries stored under one weak key, in
insertion order, which is ascending block order.  A missing key gives the
empty list, matching the None branch of the source, which does nothing. -/
def sigsGet (m : List (Nat × SigEntry)) (w : Nat) : List SigEntry :=
  (m.filter (fun p => p.1 == w)).map (fun p => p.2)

/-- Little-endian byte encoding: k bytes of the value n, dropping the bits
above 8 * k exactly as the u32 and u64 casts in the source do. -/
def leBytes : Nat → Nat → List Nat
  | 0, _ => []
  | k + 1, n => n % 256 :: leBytes k (n / 256)

/-- Little-endian byte decoding, as in u32::from_le_bytes and
u64::from_le_bytes. -/
def fromLeBytes (l : List Nat) : Nat :=
  l.foldr (fun b acc => b + 256 * acc) 0

/-- Body of the flush_add closure: a nonempty pending literal buffer is
emitted as opcode 0x00, four little-endian length bytes of
(pending.len() as u32), then the buffered bytes; an empty buffer emits
nothing. -/
def flushChunk (pending : List Nat) : List Nat :=
  if pending = [] then [] else 0 :: leBytes 4 pending.length ++ pending

/-- Main loop of create_patch_bytes over the new buffer.  The state is the
cursor pos, the output buffer out and the pending literal buffer; one fuel
unit is spent per iteration, and every iteration advances pos by at least
one, so a fuel of new.length is enough.  Each iteration takes the window
new[pos .. pos + min(block_size, remaining)), looks its weak checksum up in
the signature index, and scans the candidates in stored order for the first
strong-hash match; on a match it flushes the pending literals and emits a
copy record with offset block_index * block_size (wrapping u64 arithmetic:
the eight emitted bytes are the low 64 bits) and length try_len (as u32: the
four emitted bytes are the low 32 bits); otherwise it buffers one literal
byte, flushing as soon as the buffer reaches block_size bytes. -/
def encodeLoopAux (H : List Nat → List Nat) (sigs : List (Nat × SigEntry))
    (bs : Nat) (new : List Nat) :
    Nat → Nat → List Nat → List Nat → List Nat × List Nat
  | 0, _, out, pending => (out, pending)
  | fuel + 1, pos, out, pending =>
      if pos < new.length then
        let remaining := new.length - pos
        let tryLen := min bs remaining
        if tryLen < 1 then
          encodeLoopAux H sigs bs new fuel (pos + 1) out (pending ++ [new.getD pos 0])
        else
          if pos + tryLen ≤ new.length then
            let window := (new.drop pos).take tryLen
            let weak := (Rolling.fromSlice window).chksum
            match (sigsGet sigs weak).find? (fun e => e.strongHash == H window) with
            | some e =>
                encodeLoopAux H sigs bs new fuel (pos + tryLen)
                  (out ++ flushChunk pending ++
                    1 :: (leBytes 8 (e.blockIndex * bs) ++ leBytes 4 tryLen)) []
            | none =>
                if bs ≤ pending.length + 1 then
                  encodeLoopAux H sigs bs new fuel (pos + 1)
                    (out ++ flushChunk (pending ++ [new.getD pos 0])) []
                else
                  encodeLoopAux H sigs bs new fuel (pos + 1) out
                    (pending ++ [new.getD pos 0])
          else
            (out, pending ++ new.drop pos)
      else
        (out, pending)

/-- create_patch_bytes: reject block_size = 0, build the signature index over
old, run the encoder loop over new, and flush any remaining pending
literals. -/
def create_patch_bytes (H : List Nat → List Nat) (old new : List Nat) (bs : Nat) :
    Except XDeltaError (List Nat) :=
  if bs = 0 then .error (.InvalidArg "block_size must be > 0")
  else
    let r := encodeLoopAux H (build_signatures H old bs) bs new new.length 0 [] []
    .ok (r.1 ++ flushChunk r.2)

/-- Loop of apply_patch_bytes over the patch byte stream.  Each record starts
with an opcode byte: 0x00 is a literal (four length bytes then that many
payload bytes appended to the output), 0x01 is a copy (eight offset bytes and
four length bytes naming the range of old to append), anything else is an
error.  The source computes the copy bound offset + len in usize, so the
model takes that sum modulo 2 to the 64, as a release build does, and checks
the wrapped sum against old.  When the wrapped sum passes the check but falls
below the offset (which happens exactly when the addition wrapped, since the
length field is below 2 to the 32), the source's old[offset..sum] slice
aborts the process; the model returns none for that outcome, while every
normal return of the source is a some.  (The source's cursor sums pos + 4 and
pos + len over the patch itself are represented structurally by the list,
which coincides with the source for any patch shorter than 2 to the 64 minus
2 to the 32 bytes.)  Every record consumes at least the opcode byte, so a
fuel of patch.length is enough; the fuel-exhausted error is unreachable from
apply_patch_bytes and exists only to make the recursion structural. -/
def applyLoopAux (old : List Nat) :
    Nat → List Nat → List Nat → Option (Except XDeltaError (List Nat))
  | _, [], out => some (.ok out)
  | 0, _ :: _, _ => some (.error (.InvalidArg "unreachable: fuel exhausted"))
  | fuel + 1, opcode :: rest, out =>
      if opcode = 0 then
        if rest.length < 4 then some (.error (.InvalidArg "truncated ADD length"))
        else
          let len := fromLeBytes (rest.take 4)
          let body := rest.drop 4
          if body.length < len then some (.error (.InvalidArg "truncated ADD data"))
          else applyLoopAux old fuel (body.drop len) (out ++ body.take len)
      else if opcode = 1 then
        if rest.length < 12 then some (.error (.InvalidArg "truncated COPY entry"))
        else
          let offset := fromLeBytes (rest.take 8)
          let len := fromLeBytes ((rest.drop 8).take 4)
          let sum := (offset + len) % 18446744073709551616
          if old.length < sum then some (.error (.InvalidArg "COPY out of range"))
          else if sum < offset then none
          else applyLoopAux old fuel (rest.drop 12)
            (out ++ (old.drop offset).take (sum - offset))
      else some (.error (.InvalidArg "unknown opcode"))

/-- apply_patch_bytes: run the record loop over the whole patch starting from
an empty output.  A some is a normal return of the source (Ok or Err); none
is the modelled abort of the source on a wrapped copy bound. -/
def apply_patch_bytes (old patch : List Nat) : Option (Except XDeltaError (List Nat)) :=
  applyLoopAux old patch.length patch []

/-- C3 counterexample: the signature builder performs no block_size
validation.  Called with an empty old buffer and block_size = 0 it returns
the empty index as an ordinary value; its result type has no error case at
all, so it cannot return InvalidArgument, contradicting the claim that
build(old, 0) fails.  (For nonempty old and block_size = 0 the source loop
does not even terminate.) -/
theorem c3_zero_block_size_counterexample :
    build_signatures (fun l => l) [] 0 = [] := rfl

/-- C3 amended: only the delta encoder validates block_size: for every hash
function and all buffers, create_patch_bytes with block_size = 0 returns the
InvalidArgument error, while build_signatures performs no validation and
returns a plain index value (the empty index for empty old). -/
theorem c3_zero_block_size (H : List Nat → List Nat) (old new : List Nat) :
    create_patch_bytes H old new 0
      = .error (.InvalidArg "block_size must be > 0") ∧
    build_signatures H [] 0 = [] := by
  constructor
  · rfl
  · rfl

/-- Modelled from the claim wording for C2: a patch byte stream is malformed
when some record is truncated mid-record (too few bytes remain for a declared
length field or payload), has an opcode byte other than 0x00 and 0x01, or is
a copy whose range [offset, offset + length) exceeds the bounds of old.  The
fuel argument plays the same bookkeeping role as in applyLoopAux. -/
def malformedAux (oldLen : Nat) : Nat → List Nat → Bool
  | _, [] => false
  | 0, _ :: _ => true
  | fuel + 1, opcode :: rest =>
      if opcode = 0 then
        if rest.length < 4 then true
        else
          let len := fromLeBytes (rest.take 4)
          if (rest.drop 4).length < len then true
          else malformedAux oldLen fuel ((rest.drop 4).drop len)
      else if opcode = 1 then
        if rest.length < 12 then true
        else
          let offset := fromLeBytes (rest.take 8)
          let len := fromLeBytes ((rest.drop 8).take 4)
          if oldLen < offset + len then true
          else malformedAux oldLen fuel (rest.drop 12)
      else true

/-- Malformedness of a whole patch against an old buffer of the given
length. -/
def malformedPatch (oldLen : Nat) (patch : List Nat) : Bool :=
  malformedAux oldLen patch.length patch

/-- Whether an Except value is a success. -/
def isOk {α β : Type} : Except α β → Bool
  | .ok _ => true
  | .error _ => false

/-- A little-endian decode of a list of bytes is bounded by 256 to the
number of bytes. -/
theorem fromLeBytes_lt : ∀ (l : List Nat), (∀ b ∈ l, b < 256) →
    fromLeBytes l < 256 ^ l.length := by
  intro l
  induction l with
  | nil => intro _; norm_num [fromLeBytes]
  | cons b t ih =>
      intro hb
      have hc : fromLeBytes (b :: t) = b + 256 * fromLeBytes t := rfl
      have h1 : b < 256 := hb b (by simp)
      have h2 : fromLeBytes t < 256 ^ t.length := ih (fun x hx => hb x (by simp [hx]))
      have hp : 256 ^ (t.length + 1) = 256 * 256 ^ t.length := by ring
      simp only [List.length_cons, hc, hp]
      omega

theorem applyLoop_ok_iff (old : List Nat) :
    ∀ (fuel : Nat) (suffix out : List Nat), suffix.length ≤ fuel →
      (∀ b ∈ suffix, b < 256) →
      ∀ r, applyLoopAux old fuel suffix out = some r →
        isOk r = !(malformedAux old.length fuel suffix) := by
  intro fuel
  induction fuel with
  | zero =>
      intro suffix out h hbytes
      match suffix with
      | [] =>
          intro r hr
          have h2 : Except.ok out = r := Option.some.inj hr
          rw [← h2]
          rfl
  | succ f ih =>
      intro suffix out h hbytes
      match suffix with
      | [] =>
          intro r hr
          have h2 : Except.ok out = r := Option.some.inj hr
          rw [← h2]
          rfl
      | op :: rest =>
          intro r hr
          simp only [applyLoopAux] at hr
          simp only [malformedAux]
          by_cases h0 : op = 0
          · rw [if_pos h0] at hr
            rw [if_pos h0]
            by_cases h4 : rest.length < 4
            · rw [if_pos h4] at hr
              rw [if_pos h4]
              have h2 : Except.error (XDeltaError.InvalidArg "truncated ADD length") = r :=
                Option.some.inj hr
              rw [← h2]
              rfl
            · rw [if_neg h4] at hr
              rw [if_neg h4]
              by_cases hlen : (rest.drop 4).length < fromLeBytes (rest.take 4)
              · rw [if_pos hlen] at hr
                rw [if_pos hlen]
                have h2 : Except.error (XDeltaError.InvalidArg "truncated ADD data") = r :=
                  Option.some.inj hr
                rw [← h2]
                rfl
              · rw [if_neg hlen] at hr
                rw [if_neg hlen]
                exact ih _ _
                  (by
                    simp only [List.length_cons] at h
                    simp only [List.length_drop]
                    omega)
                  (fun b hb => hbytes b (List.mem_cons_of_mem _
                    (List.drop_subset _ _ (List.drop_subset _ _ hb))))
                  r hr
          · by_cases h1 : op = 1
            · rw [if_neg h0, if_pos h1] at hr
              rw [if_neg h0, if_pos h1]
              by_cases h12 : rest.length < 12
              · rw [if_pos h12] at hr
                rw [if_pos h12]
                have h2 : Except.error (XDeltaError.InvalidArg "truncated COPY entry") = r :=
                  Option.some.inj hr
                rw [← h2]
                rfl
              · rw [if_neg h12] at hr
                rw [if_neg h12]
                have hoffb : fromLeBytes (rest.take 8) < 18446744073709551616 := by
                  have h1' := fromLeBytes_lt (rest.take 8)
                    (fun b hb => hbytes b (List.mem_cons_of_mem _ (List.take_subset _ _ hb)))
                  have h2' : (rest.take 8).length = 8 := by
                    rw [List.length_take]
                    omega
                  rw [h2'] at h1'
                  norm_num at h1'
                  exact h1'
                have hlenb : fromLeBytes ((rest.drop 8).take 4) < 4294967296 := by
                  have h1' := fromLeBytes_lt ((rest.drop 8).take 4)
                    (fun b hb => hbytes b (List.mem_cons_of_mem _
                      (List.drop_subset _ _ (List.take_subset _ _ hb))))
                  have h2' : ((rest.drop 8).take 4).length = 4 := by
                    rw [List.length_take, List.length_drop]
                    omega
                  rw [h2'] at h1'
                  norm_num at h1'
                  exact h1'
                by_cases hb2 : old.length < (fromLeBytes (rest.take 8)
                    + fromLeBytes ((rest.drop 8).take 4)) % 18446744073709551616
                · rw [if_pos hb2] at hr
                  rw [if_pos (lt_of_lt_of_le hb2 (Nat.mod_le _ _))]
                  have h2 : Except.error (XDeltaError.InvalidArg "COPY out of range") = r :=
                    Option.some.inj hr
                  rw [← h2]
                  rfl
                · rw [if_neg hb2] at hr
                  by_cases hw : (fromLeBytes (rest.take 8)
                        + fromLeBytes ((rest.drop 8).take 4)) % 18446744073709551616
                      < fromLeBytes (rest.take 8)
                  · rw [if_pos hw] at hr
                    exact Option.noConfusion hr
                  · rw [if_neg hw] at hr
                    have hnow : (fromLeBytes (rest.take 8)
                          + fromLeBytes ((rest.drop 8).take 4)) % 18446744073709551616
                        = fromLeBytes (rest.take 8) + fromLeBytes ((rest.drop 8).take 4) := by
                      rcases Nat.lt_or_ge (fromLeBytes (rest.take 8)
                          + fromLeBytes ((rest.drop 8).take 4)) 18446744073709551616
                        with hlt | hge
                      · exact Nat.mod_eq_of_lt hlt
                      · exfalso
                        have hs : (fromLeBytes (rest.take 8)
                              + fromLeBytes ((rest.drop 8).take 4)) % 18446744073709551616
                            = fromLeBytes (rest.take 8) + fromLeBytes ((rest.drop 8).take 4)
                              - 18446744073709551616 := by
                          rw [Nat.mod_eq_sub_mod hge]
                          exact Nat.mod_eq_of_lt (by omega)
                        rw [hs] at hw
                        omega
                    rw [hnow] at hb2
                    rw [if_neg hb2]
                    exact ih _ _
                      (by
                        simp only [List.length_cons] at h
                        simp only [List.length_drop]
                        omega)
                      (fun b hb => hbytes b (List.mem_cons_of_mem _
                        (List.drop_subset _ _ hb)))
                      r hr
            · rw [if_neg h0, if_neg h1] at hr
              rw [if_neg h0, if_neg h1]
              have h2 : Except.error (XDeltaError.InvalidArg "unknown opcode") = r :=
                Option.some.inj hr
              rw [← h2]
              rfl

/-- C2 counterexample: the decoder does not return InvalidArgument on every
malformed patch.  The source adds the copy offset and length in usize, so the
13-byte copy record with offset 2 to the 64 minus 1 and length 1 wraps the
sum to 0, passes the range check against any old buffer, and the source then
aborts slicing old from that offset down to 0 (in a debug build the addition
itself aborts); the model returns none, the modelled abort, where the claim
promises an InvalidArgument error for this malformed patch. -/
theorem c2_decode_abort_counterexample :
    malformedPatch ([] : List Nat).length
        [1, 255, 255, 255, 255, 255, 255, 255, 255, 1, 0, 0, 0] = true ∧
    apply_patch_bytes []
        [1, 255, 255, 255, 255, 255, 255, 255, 255, 1, 0, 0, 0] = none :=
  ⟨rfl, rfl⟩

/-- C2 corrected: among runs in which the decoder returns at all (no wrapped
copy bound aborts it), apply_patch_bytes returns an InvalidArgument error
exactly when the patch is malformed in the sense of malformedPatch (a record
truncated mid-record, an opcode byte that is neither 0x00 nor 0x01, or a copy
range exceeding the bounds of old), and otherwise returns Ok; the patch
entries are bytes.  Without the no-abort restriction the claim is refuted by
the counterexample above. -/
theorem c2_decode_error_characterization (old patch : List Nat)
    (hbytes : ∀ b ∈ patch, b < 256)
    (hnp : apply_patch_bytes old patch ≠ none) :
    ((∃ e, apply_patch_bytes old patch = some (.error e))
        ↔ malformedPatch old.length patch = true) ∧
    ((∃ out, apply_patch_bytes old patch = some (.ok out))
        ↔ malformedPatch old.length patch = false) := by
  cases happly : apply_patch_bytes old patch with
  | none => exact absurd happly hnp
  | some r =>
      have h := applyLoop_ok_iff old patch.length patch [] (le_refl _) hbytes r happly
      unfold malformedPatch
      cases r with
      | ok v =>
          simp only [isOk] at h
          constructor
          · constructor
            · rintro ⟨e, he⟩
              simp at he
            · intro hm
              rw [hm] at h
              cases h
          · constructor
            · intro _
              cases hm : malformedAux old.length patch.length patch
              · rfl
              · rw [hm] at h
                cases h
            · intro _
              exact ⟨v, rfl⟩
      | error e =>
          simp only [isOk] at h
          constructor
          · constructor
            · intro _
              cases hm : malformedAux old.length patch.length patch
              · rw [hm] at h
                cases h
              · rfl
            · intro _
              exact ⟨e, rfl⟩
          · constructor
            · rintro ⟨v, hv⟩
              simp at hv
            · intro hm
              rw [hm] at h
              cases h

theorem c2_decode_error_characterization_witness :
    (∀ b ∈ ([1, 0, 0, 0, 0, 0, 0, 0, 0, 1, 0, 0, 0] : List Nat), b < 256) ∧
    apply_patch_bytes [5] [1, 0, 0, 0, 0, 0, 0, 0, 0, 1, 0, 0, 0] ≠ none ∧
    (((∃ e, apply_patch_bytes [5] [1, 0, 0, 0, 0, 0, 0, 0, 0, 1, 0, 0, 0]
          = some (.error e))
        ↔ malformedPatch ([5] : List Nat).length
            [1, 0, 0, 0, 0, 0, 0, 0, 0, 1, 0, 0, 0] = true) ∧
     ((∃ out, apply_patch_bytes [5] [1, 0, 0, 0, 0, 0, 0, 0, 0, 1, 0, 0, 0]
          = some (.ok out))
        ↔ malformedPatch ([5] : List Nat).length
            [1, 0, 0, 0, 0, 0, 0, 0, 0, 1, 0, 0, 0] = false)) :=
  ⟨by decide, fun h => Option.noConfusion h,
    c2_decode_error_characterization [5] [1, 0, 0, 0, 0, 0, 0, 0, 0, 1, 0, 0, 0]
      (by decide) (fun h => Option.noConfusion h)⟩

/-- The encoder loop only ever appends to the output accumulator: running it
from an arbitrary accumulator is running it from the empty one and prefixing
the accumulator, and the final pending buffer does not depend on the
accumulator. -/
theorem encodeLoopAux_append (H : List Nat → List Nat) (sigs : List (Nat × SigEntry))
    (bs : Nat) (new : List Nat) :
    ∀ (fuel pos : Nat) (pending out : List Nat),
      (encodeLoopAux H sigs bs new fuel pos out pending).1
        = out ++ (encodeLoopAux H sigs bs new fuel pos [] pending).1 ∧
      (encodeLoopAux H sigs bs new fuel pos out pending).2
        = (encodeLoopAux H sigs bs new fuel pos [] pending).2 := by
  intro fuel
  induction fuel with
  | zero => intro pos pending out; simp [encodeLoopAux]
  | succ f ih =>
      intro pos pending out
      simp only [encodeLoopAux]
      by_cases hp : pos < new.length
      · simp only [if_pos hp]
        by_cases ht : min bs (new.length - pos) < 1
        · simp only [if_pos ht]
          exact ih _ _ _
        · simp only [if_neg ht]
          by_cases hle : pos + min bs (new.length - pos) ≤ new.length
          · simp only [if_pos hle]
            cases hfind : (sigsGet sigs
                (Rolling.fromSlice ((new.drop pos).take
                  (min bs (new.length - pos)))).chksum).find?
                (fun e => e.strongHash
                  == H ((new.drop pos).take (min bs (new.length - pos)))) with
            | none =>
                simp only [hfind]
                by_cases hfl : bs ≤ pending.length + 1
                · simp only [if_pos hfl]
                  refine ⟨?_, ?_⟩
                  · rw [(ih _ _ _).1]
                    conv_rhs => rw [(ih _ _ _).1]
                    simp [List.append_assoc]
                  · rw [(ih _ _ _).2]
                    conv_rhs => rw [(ih _ _ _).2]
                · simp only [if_neg hfl]
                  exact ih _ _ _
            | some e =>
                simp only [hfind]
                refine ⟨?_, ?_⟩
                · rw [(ih _ _ _).1]
                  conv_rhs => rw [(ih _ _ _).1]
                  simp [List.append_assoc]
                · rw [(ih _ _ _).2]
                  conv_rhs => rw [(ih _ _ _).2]
          · simp only [if_neg hle]
            simp
      · simp only [if_neg hp]
        simp

/-- Every entry of the signature-builder loop records the hash of the block
of the input that starts j blocks after the loop entry point, and that block
is nonempty. -/
theorem blockSigsAux_strong (H : List Nat → List Nat) (bs : Nat) :
    ∀ (fuel : Nat) (l : List Nat) (idx : Nat) (p : Nat × SigEntry),
      p ∈ blockSigsAux H bs fuel l idx →
      ∃ j, p.2.blockIndex = idx + j ∧
        p.2.strongHash = H ((l.drop (j * bs)).take bs) ∧
        l.drop (j * bs) ≠ [] := by
  intro fuel
  induction fuel with
  | zero => intro l idx p hp; simp [blockSigsAux] at hp
  | succ f ih =>
      intro l idx p hp
      match l with
      | [] => simp [blockSigsAux] at hp
      | v :: old =>
          simp only [blockSigsAux, List.mem_cons] at hp
          rcases hp with hp | hp
          · refine ⟨0, ?_, ?_, ?_⟩
            · rw [hp]; simp
            · rw [hp]; simp
            · simp
          · obtain ⟨j, hj1, hj2, hj3⟩ := ih ((v :: old).drop bs) (idx + 1) p hp
            refine ⟨j + 1, by omega, ?_, ?_⟩
            · rw [hj2, List.drop_drop]
              congr 2
              ring_nf
            · rw [List.drop_drop] at hj3
              have hmul : (j + 1) * bs = bs + j * bs := by ring
              rw [hmul]
              exact hj3

/-- Block indices recorded by the signature-builder loop are at least the
starting index. -/
theorem blockSigsAux_idx_ge (H : List Nat → List Nat) (bs : Nat) :
    ∀ (fuel : Nat) (l : List Nat) (idx : Nat) (p : Nat × SigEntry),
      p ∈ blockSigsAux H bs fuel l idx → idx ≤ p.2.blockIndex := by
  intro fuel
  induction fuel with
  | zero => intro l idx p hp; simp [blockSigsAux] at hp
  | succ f ih =>
      intro l idx p hp
      match l with
      | [] => simp [blockSigsAux] at hp
      | v :: old =>
          simp only [blockSigsAux, List.mem_cons] at hp
          rcases hp with hp | hp
          · rw [hp]
          · have := ih ((v :: old).drop bs) (idx + 1) p hp
            omega

/-- The signature-builder loop lists entries in strictly ascending block
order. -/
theorem blockSigsAux_pairwise (H : List Nat → List Nat) (bs : Nat) :
    ∀ (fuel : Nat) (l : List Nat) (idx : Nat),
      List.Pairwise (fun p q => p.2.blockIndex < q.2.blockIndex)
        (blockSigsAux H bs fuel l idx) := by
  intro fuel
  induction fuel with
  | zero => intro l idx; simp [blockSigsAux]
  | succ f ih =>
      intro l idx
      match l with
      | [] => simp [blockSigsAux]
      | v :: old =>
          simp only [blockSigsAux]
          refine List.Pairwise.cons ?_ (ih _ _)
          intro q hq
          have := blockSigsAux_idx_ge H bs f ((v :: old).drop bs) (idx + 1) q hq
          simp only []
          omega

/-- The candidate list under any weak key is strictly ascending in block
index: it is obtained from the ascending entry list by filtering on the key
and projecting. -/
theorem sigsGet_pairwise (H : List Nat → List Nat) (old : List Nat) (bs w : Nat) :
    List.Pairwise (fun a b => a.blockIndex < b.blockIndex)
      (sigsGet (build_signatures H old bs) w) := by
  unfold sigsGet build_signatures
  rw [List.pairwise_map]
  exact (blockSigsAux_pairwise H bs old.length old 0).filter _

/-- On a strictly ascending list, find? returns an element whose block index
is minimal among all elements satisfying the predicate. -/
theorem find?_first_min (p : SigEntry → Bool) :
    ∀ (l : List SigEntry) (e : SigEntry),
      List.Pairwise (fun a b => a.blockIndex < b.blockIndex) l →
      l.find? p = some e →
      ∀ e2 ∈ l, p e2 = true → e.blockIndex ≤ e2.blockIndex := by
  intro l
  induction l with
  | nil => intro e _ hf; simp [List.find?] at hf
  | cons a t ih =>
      intro e hp hf e2 he2 hpe2
      rw [List.pairwise_cons] at hp
      cases hpa : p a with
      | true =>
          rw [List.find?_cons_of_pos _ hpa] at hf
          cases hf
          rcases List.mem_cons.mp he2 with h | h
          · rw [h]
          · exact Nat.le_of_lt (hp.1 e2 h)
      | false =>
          rw [List.find?_cons_of_neg _ (by simp [hpa])] at hf
          rcases List.mem_cons.mp he2 with h | h
          · rw [h] at hpe2; rw [hpe2] at hpa; cases hpa
          · exact ih e hp.2 hf e2 h hpe2

/-- Every candidate stored under a weak key in the signature index carries
the hash of the old-buffer block at offset blockIndex * block_size, and that
block is nonempty. -/
theorem sigsGet_strong (H : List Nat → List Nat) (old : List Nat) (bs w : Nat)
    (e : SigEntry) (he : e ∈ sigsGet (build_signatures H old bs) w) :
    e.strongHash = H ((old.drop (e.blockIndex * bs)).take bs) ∧
    old.drop (e.blockIndex * bs) ≠ [] := by
  unfold sigsGet build_signatures at he
  rcases List.mem_map.mp he with ⟨p, hpmem, hpe⟩
  have hpf := List.mem_of_mem_filter hpmem
  obtain ⟨j, hj1, hj2, hj3⟩ := blockSigsAux_strong H bs old.length old 0 p hpf
  rw [← hpe]
  have hj : p.2.blockIndex = j := by omega
  rw [hj]
  exact ⟨hj2, hj3⟩

theorem leBytes_length (k : Nat) : ∀ n, (leBytes k n).length = k := by
  induction k with
  | zero => intro n; rfl
  | succ k ih => intro n; simp [leBytes, ih]

theorem fromLeBytes_cons (b : Nat) (l : List Nat) :
    fromLeBytes (b :: l) = b + 256 * fromLeBytes l := rfl

theorem fromLeBytes_leBytes (k : Nat) : ∀ n, fromLeBytes (leBytes k n) = n % 256 ^ k := by
  induction k with
  | zero => intro n; simp [leBytes, fromLeBytes, Nat.mod_one]
  | succ k ih =>
      intro n
      rw [leBytes, fromLeBytes_cons, ih, pow_succ']
      rw [Nat.mod_mul]

theorem drop_append_len {α : Type} (l1 : List α) (l2 : List α) (k : Nat) :
    (l1 ++ l2).drop (l1.length + k) = l2.drop k := by
  induction l1 with
  | nil => simp
  | cons a t ih =>
      rw [List.length_cons, List.cons_append]
      have h : t.length + 1 + k = (t.length + k) + 1 := by omega
      rw [h, List.drop_succ_cons]
      exact ih

/-- The decoder loop does not depend on the exact fuel value as long as the
fuel covers the remaining patch length. -/
theorem applyLoopAux_fuel (old : List Nat) :
    ∀ (f1 f2 : Nat) (suffix out : List Nat), suffix.length ≤ f1 → suffix.length ≤ f2 →
      applyLoopAux old f1 suffix out = applyLoopAux old f2 suffix out := by
  intro f1
  induction f1 with
  | zero =>
      intro f2 suffix out h1 h2
      match suffix with
      | [] => cases f2 <;> rfl
  | succ f ih =>
      intro f2 suffix out h1 h2
      match suffix with
      | [] => cases f2 <;> rfl
      | op :: rest =>
          match f2 with
          | 0 => simp at h2
          | g + 1 =>
              simp only [applyLoopAux]
              simp only [List.length_cons] at h1 h2
              by_cases h0 : op = 0
              · by_cases h4 : rest.length < 4
                · simp [h0, h4]
                · by_cases hlen : rest.length - 4 < fromLeBytes (rest.take 4)
                  · simp [h0, h4, hlen]
                  · simp [h0, h4, hlen]
                    refine ih g _ _ ?_ ?_ <;> simp only [List.length_drop] <;> omega
              · by_cases h1' : op = 1
                · by_cases h12 : rest.length < 12
                  · simp [h0, h1', h12]
                  · by_cases hb : old.length < (fromLeBytes (rest.take 8)
                        + fromLeBytes ((rest.drop 8).take 4)) % 18446744073709551616
                    · simp [h0, h1', h12, hb]
                    · by_cases hw : (fromLeBytes (rest.take 8)
                            + fromLeBytes ((rest.drop 8).take 4)) % 18446744073709551616
                          < fromLeBytes (rest.take 8)
                      · simp [h0, h1', h12, hb, hw]
                      · simp [h0, h1', h12, hb, hw]
                        refine ih g _ _ ?_ ?_ <;> simp only [List.length_drop] <;> omega
                · simp [h0, h1']

/-- The decoder loop run with exactly enough fuel for its input. -/
def applyRun (old suffix out : List Nat) : Option (Except XDeltaError (List Nat)) :=
  applyLoopAux old suffix.length suffix out

theorem applyRun_nil (old out : List Nat) : applyRun old [] out = some (.ok out) := rfl

theorem apply_patch_bytes_eq_run (old patch : List Nat) :
    apply_patch_bytes old patch = applyRun old patch [] := rfl

/-- Decoding one literal record appends its payload to the output and
continues with the remaining records. -/
theorem applyRun_lit (old data rest out : List Nat) (h : data.length < 4294967296) :
    applyRun old (0 :: (leBytes 4 data.length ++ (data ++ rest))) out
      = applyRun old rest (out ++ data) := by
  unfold applyRun
  have hlen4 : (leBytes 4 data.length).length = 4 := leBytes_length 4 data.length
  have hlen : (0 :: (leBytes 4 data.length ++ (data ++ rest))).length
      = 5 + data.length + rest.length := by
    simp only [List.length_cons, List.length_append, hlen4]
    omega
  rw [hlen]
  have h5 : 5 + data.length + rest.length = (4 + data.length + rest.length) + 1 := by omega
  rw [h5, applyLoopAux]
  have htail : (leBytes 4 data.length ++ (data ++ rest)).length
      = 4 + (data.length + rest.length) := by
    simp only [List.length_append, hlen4]
  rw [if_pos rfl]
  rw [if_neg (by rw [htail]; omega)]
  rw [List.take_left' hlen4, List.drop_left' hlen4]
  rw [fromLeBytes_leBytes]
  have hmod : data.length % 256 ^ 4 = data.length :=
    Nat.mod_eq_of_lt (by norm_num; omega)
  rw [hmod]
  rw [if_neg (by simp only [List.length_append]; omega)]
  rw [List.take_left, List.drop_left]
  apply applyLoopAux_fuel
  · omega
  · omega

/-- Decoding one copy record appends the named range of old to the output
and continues with the remaining records; the bound off + len below 2 to the
64 keeps the source's usize addition from wrapping. -/
theorem applyRun_copy (old rest out : List Nat) (off len : Nat)
    (hoff : off + len < 18446744073709551616) (hlen : len < 4294967296)
    (hbound : off + len ≤ old.length) :
    applyRun old (1 :: (leBytes 8 off ++ (leBytes 4 len ++ rest))) out
      = applyRun old rest (out ++ (old.drop off).take len) := by
  unfold applyRun
  have hlen8 : (leBytes 8 off).length = 8 := leBytes_length 8 off
  have hlen4 : (leBytes 4 len).length = 4 := leBytes_length 4 len
  have hlen' : (1 :: (leBytes 8 off ++ (leBytes 4 len ++ rest))).length
      = 13 + rest.length := by
    simp only [List.length_cons, List.length_append, hlen8, hlen4]
    omega
  rw [hlen']
  have h13 : 13 + rest.length = (12 + rest.length) + 1 := by omega
  rw [h13]
  simp only [applyLoopAux, if_true]
  rw [if_neg (show ¬ (1 : Nat) = 0 from by norm_num)]
  have htail : (leBytes 8 off ++ (leBytes 4 len ++ rest)).length = 12 + rest.length := by
    simp only [List.length_append, hlen8, hlen4]
    omega
  rw [if_neg (by rw [htail]; omega)]
  rw [List.take_left' hlen8, List.drop_left' hlen8]
  rw [List.take_left' hlen4]
  rw [fromLeBytes_leBytes, fromLeBytes_leBytes]
  have hmod8 : off % 256 ^ 8 = off :=
    Nat.mod_eq_of_lt (by norm_num; omega)
  have hmod4 : len % 256 ^ 4 = len :=
    Nat.mod_eq_of_lt (by norm_num; omega)
  rw [hmod8, hmod4]
  have hsum : (off + len) % 18446744073709551616 = off + len := Nat.mod_eq_of_lt hoff
  rw [hsum]
  rw [if_neg (show ¬ old.length < off + len from by omega)]
  rw [if_neg (show ¬ off + len < off from by omega)]
  have hsub : off + len - off = len := by omega
  rw [hsub]
  have hdrop : (leBytes 8 off ++ (leBytes 4 len ++ rest)).drop 12 = rest := by
    have e1 := drop_append_len (leBytes 8 off) (leBytes 4 len ++ rest) 4
    have e2 := drop_append_len (leBytes 4 len) rest 0
    rw [hlen8] at e1
    rw [hlen4] at e2
    norm_num at e1 e2
    rw [e1]
    exact e2
  rw [hdrop]
  apply applyLoopAux_fuel
  · omega
  · omega

/-- Decoding a flushed pending buffer (possibly empty) appends it verbatim. -/
theorem applyRun_flush (old pending rest out : List Nat)
    (h : pending.length < 4294967296) :
    applyRun old (flushChunk pending ++ rest) out = applyRun old rest (out ++ pending) := by
  by_cases hp : pending = []
  · subst hp; simp [flushChunk]
  · rw [flushChunk, if_neg hp]
    have e : (0 :: leBytes 4 pending.length ++ pending) ++ rest
        = 0 :: (leBytes 4 pending.length ++ (pending ++ rest)) := by
      simp [List.append_assoc]
    rw [e, applyRun_lit old pending rest out h]

/-- Main round-trip invariant: decoding whatever the encoder loop emits from
cursor pos, followed by the flush of its final pending buffer, appends the
carried pending bytes and the unprocessed suffix of new to the output.  The
hypotheses are hash injectivity, 1 <= block_size < 2 to the 32 (so u32 length
fields do not truncate) and old shorter than 2 to the 64 (so u64 offset
fields do not truncate and the decoder's usize copy bound does not wrap). -/
theorem encodeLoop_roundtrip (H : List Nat → List Nat) (old new : List Nat) (bs : Nat)
    (hinj : Function.Injective H) (hbs : 1 ≤ bs) (hbs32 : bs < 4294967296)
    (hold : old.length < 18446744073709551616) :
    ∀ (fuel pos : Nat) (pending : List Nat),
      new.length - pos ≤ fuel → pending.length < bs →
      ∀ out0, applyRun old
          ((encodeLoopAux H (build_signatures H old bs) bs new fuel pos [] pending).1
            ++ flushChunk
              (encodeLoopAux H (build_signatures H old bs) bs new fuel pos [] pending).2)
          out0
        = some (.ok (out0 ++ pending ++ new.drop pos)) := by
  intro fuel
  induction fuel with
  | zero =>
      intro pos pending hf hpend out0
      have hdrop : new.drop pos = [] := List.drop_eq_nil_of_le (by omega)
      simp only [encodeLoopAux, List.nil_append]
      have hflush := applyRun_flush old pending [] out0 (by omega)
      rw [List.append_nil] at hflush
      rw [hflush, applyRun_nil, hdrop, List.append_nil]
  | succ f ih =>
      intro pos pending hf hpend out0
      by_cases hp : pos < new.length
      · simp only [encodeLoopAux, if_pos hp]
        rw [if_neg (by omega)]
        rw [if_pos (by omega)]
        cases hfind : (sigsGet (build_signatures H old bs)
            (Rolling.fromSlice ((new.drop pos).take (min bs (new.length - pos)))).chksum).find?
            (fun e => e.strongHash == H ((new.drop pos).take (min bs (new.length - pos)))) with
        | some e =>
            simp only [hfind]
            have hwindow_len : ((new.drop pos).take (min bs (new.length - pos))).length
                = min bs (new.length - pos) := by
              simp only [List.length_take, List.length_drop]
              omega
            have hpred := List.find?_some hfind
            have hmem := List.mem_of_find?_eq_some hfind
            have hstrong := sigsGet_strong H old bs _ e hmem
            have hEhash : e.strongHash
                = H ((new.drop pos).take (min bs (new.length - pos))) := by
              simpa using hpred
            have heq : (old.drop (e.blockIndex * bs)).take bs
                = (new.drop pos).take (min bs (new.length - pos)) := by
              apply hinj
              rw [← hstrong.1, hEhash]
            have hblock_len : ((old.drop (e.blockIndex * bs)).take bs).length
                = min bs (old.length - e.blockIndex * bs) := by
              simp only [List.length_take, List.length_drop]
            have hmineq : min bs (old.length - e.blockIndex * bs)
                = min bs (new.length - pos) := by
              rw [← hblock_len, heq, hwindow_len]
            have hoff_lt : e.blockIndex * bs < old.length := by
              rcases Nat.lt_or_ge (e.blockIndex * bs) old.length with h | h
              · exact h
              · exact absurd (List.drop_eq_nil_of_le h) hstrong.2
            have hcontent : (old.drop (e.blockIndex * bs)).take (min bs (new.length - pos))
                = (new.drop pos).take (min bs (new.length - pos)) := by
              have h1 : ((old.drop (e.blockIndex * bs)).take bs).take
                    (min bs (new.length - pos))
                  = (old.drop (e.blockIndex * bs)).take (min bs (new.length - pos)) := by
                rw [List.take_take]
                congr 1
                omega
              rw [← h1, heq]
              exact List.take_of_length_le (by rw [hwindow_len])
            rw [(encodeLoopAux_append H (build_signatures H old bs) bs new f _ _ _).1,
              (encodeLoopAux_append H (build_signatures H old bs) bs new f _ _ _).2]
            simp only [List.nil_append, List.append_assoc, List.cons_append]
            rw [applyRun_flush old pending _ out0 (by omega)]
            rw [applyRun_copy old _ _ (e.blockIndex * bs) (min bs (new.length - pos))
              (by omega) (by omega) (by omega)]
            rw [hcontent]
            rw [ih (pos + min bs (new.length - pos)) [] (by omega)
              (by simpa using hbs) _]
            have hsplit : (new.drop pos).take (min bs (new.length - pos))
                ++ new.drop (pos + min bs (new.length - pos)) = new.drop pos := by
              have h1 := List.take_append_drop (min bs (new.length - pos)) (new.drop pos)
              rw [List.drop_drop] at h1
              exact h1
            congr 1
            simp only [List.append_nil, List.append_assoc]
            rw [hsplit]
        | none =>
            simp only [hfind]
            have hstep : new.drop pos = new.getD pos 0 :: new.drop (pos + 1) := by
              rw [List.drop_eq_getElem_cons hp]
              congr 1
              rw [List.getD_eq_getElem new 0 hp]
            by_cases hfl : bs ≤ pending.length + 1
            · rw [if_pos hfl]
              rw [(encodeLoopAux_append H (build_signatures H old bs) bs new f _ _ _).1,
                (encodeLoopAux_append H (build_signatures H old bs) bs new f _ _ _).2]
              simp only [List.nil_append, List.append_assoc]
              rw [applyRun_flush old (pending ++ [new.getD pos 0]) _ out0
                (by simp only [List.length_append, List.length_singleton]; omega)]
              rw [ih (pos + 1) [] (by omega) (by simpa using hbs) _]
              congr 1
              rw [hstep]
              simp [List.append_assoc]
            · rw [if_neg hfl]
              rw [ih (pos + 1) (pending ++ [new.getD pos 0]) (by omega)
                (by simp only [List.length_append, List.length_singleton]; omega) out0]
              congr 1
              rw [hstep]
              simp [List.append_assoc]
      · simp only [encodeLoopAux, if_neg hp, List.nil_append]
        have hdrop : new.drop pos = [] := List.drop_eq_nil_of_le (by omega)
        have hflush := applyRun_flush old pending [] out0 (by omega)
        rw [List.append_nil] at hflush
        rw [hflush, applyRun_nil, hdrop, List.append_nil]

/-- C1 amended: the round trip holds for every old, new and positive
block_size, provided block_size is below 2 to the 32 (so the u32 casts of
literal and copy lengths do not truncate) and old is shorter than 2 to the 64
bytes, the usize size, as every real buffer is (so the u64 copy offsets do
not truncate and the decoder's usize copy bound does not wrap), assuming the
strong hash is injective: every patch built from old to new applies to old
and reconstructs new exactly, with no decode error and no abort. -/
theorem c1_roundtrip_bounded (H : List Nat → List Nat) (old new : List Nat) (bs : Nat)
    (hinj : Function.Injective H) (hbs : 0 < bs) (hbs32 : bs < 2 ^ 32)
    (hold : old.length < 2 ^ 64) :
    ∀ p, create_patch_bytes H old new bs = .ok p →
      apply_patch_bytes old p = some (.ok new) := by
  intro p hp
  simp only [create_patch_bytes, if_neg (show ¬ bs = 0 from by omega)] at hp
  injection hp with hp2
  rw [← hp2]
  rw [apply_patch_bytes_eq_run]
  have h := encodeLoop_roundtrip H old new bs hinj (by omega) (by omega) (by omega)
    new.length 0 [] (by omega) (by simpa using hbs) []
  simpa using h

theorem c1_roundtrip_bounded_witness :
    Function.Injective (fun l : List Nat => l) ∧
    create_patch_bytes (fun l => l) [1, 2, 3, 4] [1, 2, 9, 3, 4] 2
      = .ok [1, 0, 0, 0, 0, 0, 0, 0, 0, 2, 0, 0, 0, 0, 1, 0, 0, 0, 9,
             1, 2, 0, 0, 0, 0, 0, 0, 0, 2, 0, 0, 0] ∧
    apply_patch_bytes [1, 2, 3, 4]
        [1, 0, 0, 0, 0, 0, 0, 0, 0, 2, 0, 0, 0, 0, 1, 0, 0, 0, 9,
         1, 2, 0, 0, 0, 0, 0, 0, 0, 2, 0, 0, 0]
      = some (.ok [1, 2, 9, 3, 4]) :=
  ⟨fun _ _ h => h, rfl,
    c1_roundtrip_bounded (fun l => l) [1, 2, 3, 4] [1, 2, 9, 3, 4] 2
      (fun _ _ h => h) (by norm_num) (by norm_num) (by norm_num)
      [1, 0, 0, 0, 0, 0, 0, 0, 0, 2, 0, 0, 0, 0, 1, 0, 0, 0, 9,
       1, 2, 0, 0, 0, 0, 0, 0, 0, 2, 0, 0, 0] rfl⟩

theorem blockSigsAux_nil (H : List Nat → List Nat) (bs : Nat) :
    ∀ (fuel idx : Nat), blockSigsAux H bs fuel [] idx = [] := by
  intro fuel idx
  cases fuel <;> rfl

/-- One unfolding of the signature-builder loop on a nonempty buffer, for any
positive fuel. -/
theorem blockSigsAux_cons (H : List Nat → List Nat) (bs fuel idx v : Nat)
    (old : List Nat) (hfuel : 1 ≤ fuel) :
    blockSigsAux H bs fuel (v :: old) idx
      = ((Rolling.fromSlice ((v :: old).take bs)).chksum, ⟨idx, H ((v :: old).take bs)⟩)
        :: blockSigsAux H bs (fuel - 1) ((v :: old).drop bs) (idx + 1) := by
  obtain ⟨g, rfl⟩ : ∃ g, fuel = g + 1 := ⟨fuel - 1, by omega⟩
  simp [blockSigsAux]

/-- A buffer that fits in one block yields a single signature entry. -/
theorem build_signatures_single (H : List Nat → List Nat) (old : List Nat) (bs : Nat)
    (h1 : old ≠ []) (h2 : old.length ≤ bs) :
    build_signatures H old bs = [((Rolling.fromSlice old).chksum, ⟨0, H old⟩)] := by
  match old, h1 with
  | v :: t, _ =>
      rw [build_signatures, blockSigsAux_cons H bs _ 0 v t (by simp)]
      rw [List.take_of_length_le h2, List.drop_eq_nil_of_le h2, blockSigsAux_nil]

/-- The encoder loop exits as soon as the cursor reaches the end of new. -/
theorem encodeLoopAux_exit (H : List Nat → List Nat) (sigs : List (Nat × SigEntry))
    (bs : Nat) (new : List Nat) (fuel pos : Nat) (out pending : List Nat)
    (hp : ¬ pos < new.length) :
    encodeLoopAux H sigs bs new fuel pos out pending = (out, pending) := by
  cases fuel with
  | zero => rfl
  | succ f => simp [encodeLoopAux, hp]

/-- One unfolding of the encoder loop in the case where the candidate scan
finds a strong-hash match: flush pending literals, emit the copy record of
the first matching entry, advance by the window length. -/
theorem encodeLoopAux_match_step (H : List Nat → List Nat)
    (sigs : List (Nat × SigEntry)) (bs : Nat) (new : List Nat)
    (fuel pos : Nat) (out pending : List Nat) (e : SigEntry)
    (hfuel : 1 ≤ fuel) (hp : pos < new.length) (hbs : 1 ≤ bs)
    (hfind : (sigsGet sigs
        (Rolling.fromSlice ((new.drop pos).take (min bs (new.length - pos)))).chksum).find?
        (fun c => c.strongHash == H ((new.drop pos).take (min bs (new.length - pos))))
      = some e) :
    encodeLoopAux H sigs bs new fuel pos out pending
      = encodeLoopAux H sigs bs new (fuel - 1) (pos + min bs (new.length - pos))
          (out ++ flushChunk pending ++
            1 :: (leBytes 8 (e.blockIndex * bs) ++ leBytes 4 (min bs (new.length - pos))))
          [] := by
  obtain ⟨g, rfl⟩ : ∃ g, fuel = g + 1 := ⟨fuel - 1, by omega⟩
  simp only [Nat.add_sub_cancel, encodeLoopAux, if_pos hp]
  rw [if_neg (by omega), if_pos (by omega)]
  simp only [hfind]

theorem wSumFrom_replicate_zero (n : Nat) :
    ∀ (k i : Nat), wSumFrom n i (List.replicate k 0) = 0 := by
  intro k
  induction k with
  | zero => intro i; rfl
  | succ k ih => intro i; simp [List.replicate_succ, wSumFrom, ih]

theorem fromSlice_replicate_zero (n : Nat) :
    Rolling.fromSlice (List.replicate n 0) = ⟨0, 0, n⟩ := by
  rw [fromSlice_spec]
  simp [List.sum_replicate, wSumFrom_replicate_zero]

theorem chksum_zero (n : Nat) : Rolling.chksum ⟨0, 0, n⟩ = 0 := by
  simp [Rolling.chksum]

theorem applyLoopAux_nil (old : List Nat) :
    ∀ (fuel : Nat) (out : List Nat), applyLoopAux old fuel [] out = some (.ok out) := by
  intro fuel out
  cases fuel <;> rfl

/-- C1 counterexample: at 4 GiB scale the claim fails as stated.  With old
and new both equal to the 2 to the 32 zero bytes and block_size 2 to the 32,
the whole of new matches block 0, but the emitted copy length is
(2 to the 32) as u32 = 0, so applying the produced patch to old yields the
empty buffer instead of new.  The identity hash used here is injective, so
the hypothesis of the claim about distinct digests is satisfied. -/
theorem c1_roundtrip_counterexample :
    Function.Injective (fun l : List Nat => l) ∧
    create_patch_bytes (fun l => l) (List.replicate (2 ^ 32) 0)
        (List.replicate (2 ^ 32) 0) (2 ^ 32)
      = .ok [1, 0, 0, 0, 0, 0, 0, 0, 0, 0, 0, 0, 0] ∧
    apply_patch_bytes (List.replicate (2 ^ 32) 0)
        [1, 0, 0, 0, 0, 0, 0, 0, 0, 0, 0, 0, 0]
      = some (.ok []) ∧
    ([] : List Nat) ≠ List.replicate (2 ^ 32) 0 := by
  have hXlen : (List.replicate (2 ^ 32) (0 : Nat)).length = 2 ^ 32 :=
    List.length_replicate _ _
  have hXne : (List.replicate (2 ^ 32) (0 : Nat)) ≠ [] := by
    intro h
    rw [List.replicate_eq_nil_iff] at h
    omega
  refine ⟨fun _ _ h => h, ?_, ?_, ?_⟩
  · have hsigs : build_signatures (fun l : List Nat => l)
        (List.replicate (2 ^ 32) 0) (2 ^ 32)
        = [(0, ⟨0, List.replicate (2 ^ 32) 0⟩)] := by
      rw [build_signatures_single _ _ _ hXne (by rw [hXlen])]
      rw [fromSlice_replicate_zero, chksum_zero]
    have hwin : ((List.replicate (2 ^ 32) (0 : Nat)).drop 0).take
        (min (2 ^ 32) ((List.replicate (2 ^ 32) (0 : Nat)).length - 0))
        = List.replicate (2 ^ 32) 0 := by
      rw [List.drop_zero, hXlen, Nat.sub_zero, Nat.min_self]
      rw [List.take_replicate, Nat.min_self]
    have hfind : (sigsGet [(0, (⟨0, List.replicate (2 ^ 32) 0⟩ : SigEntry))]
        (Rolling.fromSlice (((List.replicate (2 ^ 32) (0 : Nat)).drop 0).take
          (min (2 ^ 32) ((List.replicate (2 ^ 32) (0 : Nat)).length - 0)))).chksum).find?
        (fun c => c.strongHash
          == (fun l : List Nat => l) (((List.replicate (2 ^ 32) (0 : Nat)).drop 0).take
            (min (2 ^ 32) ((List.replicate (2 ^ 32) (0 : Nat)).length - 0))))
        = some ⟨0, List.replicate (2 ^ 32) 0⟩ := by
      rw [hwin, fromSlice_replicate_zero, chksum_zero]
      unfold sigsGet
      rw [List.filter_cons_of_pos (by rfl), List.filter_nil, List.map_cons, List.map_nil]
      exact List.find?_cons_of_pos _ (beq_self_eq_true _)
    have henc : encodeLoopAux (fun l : List Nat => l)
        [(0, ⟨0, List.replicate (2 ^ 32) 0⟩)] (2 ^ 32)
        (List.replicate (2 ^ 32) 0) (List.replicate (2 ^ 32) (0 : Nat)).length 0 [] []
        = ([1, 0, 0, 0, 0, 0, 0, 0, 0, 0, 0, 0, 0], []) := by
      rw [encodeLoopAux_match_step (fun l : List Nat => l)
        [(0, ⟨0, List.replicate (2 ^ 32) 0⟩)] (2 ^ 32) (List.replicate (2 ^ 32) 0)
        (List.replicate (2 ^ 32) (0 : Nat)).length 0 [] []
        ⟨0, List.replicate (2 ^ 32) 0⟩
        (by rw [hXlen]; norm_num) (by rw [hXlen]; norm_num) (by norm_num) hfind]
      rw [encodeLoopAux_exit _ _ _ _ _ _ _ _ (by rw [hXlen]; omega)]
      rw [hXlen, Nat.sub_zero, Nat.min_self]
      rfl
    simp only [create_patch_bytes, if_neg (show ¬ (2 ^ 32 : Nat) = 0 from by norm_num),
      hsigs, henc]
    rfl
  · rw [apply_patch_bytes_eq_run]
    rw [show ([1, 0, 0, 0, 0, 0, 0, 0, 0, 0, 0, 0, 0] : List Nat)
        = 1 :: (leBytes 8 0 ++ (leBytes 4 0 ++ [])) from rfl]
    rw [applyRun_copy _ _ _ 0 0 (by norm_num) (by norm_num) (by omega)]
    rw [applyRun_nil, List.take_zero, List.append_nil]
  · intro h
    have h3 : List.replicate (2 ^ 32) (0 : Nat) = [] := h.symm
    rw [List.replicate_eq_nil_iff] at h3
    omega

/-- C9 amended: identity holds for every nonempty X and every block_size
with 1 <= block_size <= len(X), provided additionally block_size < 2 to the
32 and len(X) < 2 to the 64 (the same truncation and usize bounds as the
round trip), for an injective strong hash: the patch is produced
successfully, applying it to X reproduces X with no decode error and no
abort, and its first byte is the 0x01 opcode of a Copy instruction, so it
contains at least one Copy. -/
theorem c9_identity_bounded (H : List Nat → List Nat) (X : List Nat) (bs : Nat)
    (hinj : Function.Injective H) (hne : X ≠ []) (hbs : 1 ≤ bs) (hlen : bs ≤ X.length)
    (hbs32 : bs < 2 ^ 32) (hX64 : X.length < 2 ^ 64) :
    ∃ p, create_patch_bytes H X X bs = .ok p ∧
      apply_patch_bytes X p = some (.ok X) ∧ p.head? = some 1 := by
  have hXpos : 1 ≤ X.length := by
    cases X with
    | nil => exact absurd rfl hne
    | cons v t => simp
  have hwin : ((X.drop 0).take (min bs (X.length - 0))) = X.take bs := by
    rw [List.drop_zero, Nat.sub_zero, Nat.min_eq_left hlen]
  obtain ⟨rest, hrest⟩ : ∃ rest, build_signatures H X bs
      = ((Rolling.fromSlice (X.take bs)).chksum, ⟨0, H (X.take bs)⟩) :: rest := by
    match X, hne with
    | v :: t, _ =>
        exact ⟨_, by rw [build_signatures, blockSigsAux_cons H bs _ 0 v t (by simp)]⟩
  have hfind : (sigsGet (build_signatures H X bs)
      (Rolling.fromSlice ((X.drop 0).take (min bs (X.length - 0)))).chksum).find?
      (fun c => c.strongHash == H ((X.drop 0).take (min bs (X.length - 0))))
      = some ⟨0, H (X.take bs)⟩ := by
    rw [hwin, hrest]
    rw [sigsGet]
    rw [List.filter_cons_of_pos (by simp)]
    rw [List.map_cons]
    exact List.find?_cons_of_pos _ (by simp)
  have hstep := encodeLoopAux_match_step H (build_signatures H X bs) bs X
    X.length 0 [] [] ⟨0, H (X.take bs)⟩ (by omega) (by omega) hbs hfind
  refine ⟨(encodeLoopAux H (build_signatures H X bs) bs X X.length 0 [] []).1
      ++ flushChunk (encodeLoopAux H (build_signatures H X bs) bs X X.length 0 [] []).2,
    ?_, ?_, ?_⟩
  · simp only [create_patch_bytes, if_neg (show ¬ bs = 0 from by omega)]
  · rw [apply_patch_bytes_eq_run]
    have h := encodeLoop_roundtrip H X X bs hinj hbs (by omega) (by omega)
      X.length 0 [] (by omega) (by simpa using hbs) []
    simpa using h
  · rw [hstep]
    rw [(encodeLoopAux_append H (build_signatures H X bs) bs X _ _ _ _).1]
    simp [flushChunk]

theorem c9_identity_bounded_witness :
    Function.Injective (fun l : List Nat => l) ∧
    ∃ p, create_patch_bytes (fun l => l) [7, 8] [7, 8] 1 = .ok p ∧
      apply_patch_bytes [7, 8] p = some (.ok [7, 8]) ∧ p.head? = some 1 :=
  ⟨fun _ _ h => h,
    c9_identity_bounded (fun l => l) [7, 8] 1 (fun _ _ h => h) (by simp)
      (by norm_num) (by norm_num) (by norm_num) (by norm_num)⟩

/-- C9 counterexample: as stated the identity claim fails at 4 GiB scale.
With X the 2 to the 32 + 1 zero bytes and block_size 2 to the 32 (which is
at most len(X)), the patch is produced and holds two Copy records, but the
first copy's length field is (2 to the 32) as u32 = 0, so applying the patch
yields the one-byte buffer [0] instead of X. -/
theorem c9_identity_counterexample :
    Function.Injective (fun l : List Nat => l) ∧
    (2 ^ 32 : Nat) ≤ (List.replicate (2 ^ 32 + 1) (0 : Nat)).length ∧
    create_patch_bytes (fun l => l) (List.replicate (2 ^ 32 + 1) 0)
        (List.replicate (2 ^ 32 + 1) 0) (2 ^ 32)
      = .ok [1, 0, 0, 0, 0, 0, 0, 0, 0, 0, 0, 0, 0,
             1, 0, 0, 0, 0, 1, 0, 0, 0, 1, 0, 0, 0] ∧
    apply_patch_bytes (List.replicate (2 ^ 32 + 1) 0)
        [1, 0, 0, 0, 0, 0, 0, 0, 0, 0, 0, 0, 0,
         1, 0, 0, 0, 0, 1, 0, 0, 0, 1, 0, 0, 0]
      = some (.ok [0]) ∧
    ([0] : List Nat) ≠ List.replicate (2 ^ 32 + 1) 0 := by
  have hXlen : (List.replicate (2 ^ 32 + 1) (0 : Nat)).length = 2 ^ 32 + 1 :=
    List.length_replicate _ _
  have hb0 : (List.replicate (2 ^ 32 + 1) (0 : Nat)).take (2 ^ 32)
      = List.replicate (2 ^ 32) 0 := by
    rw [List.take_replicate]
    rw [show min (2 ^ 32) (2 ^ 32 + 1) = 2 ^ 32 from by omega]
  have hb1 : (List.replicate (2 ^ 32 + 1) (0 : Nat)).drop (2 ^ 32) = [0] := by
    rw [List.drop_replicate]
    rw [show (2 : Nat) ^ 32 + 1 - 2 ^ 32 = 1 from by norm_num]
    rfl
  refine ⟨fun _ _ h => h, by rw [hXlen]; omega, ?_, ?_, ?_⟩
  · -- the signature index has two blocks, both with weak checksum 0
    have hsigs : build_signatures (fun l : List Nat => l)
        (List.replicate (2 ^ 32 + 1) 0) (2 ^ 32)
        = [(0, ⟨0, List.replicate (2 ^ 32) 0⟩), (0, ⟨1, [0]⟩)] := by
      rw [show (List.replicate (2 ^ 32 + 1) (0 : Nat))
          = 0 :: List.replicate (2 ^ 32) 0 from List.replicate_succ 0 (2 ^ 32)]
      rw [build_signatures]
      rw [blockSigsAux_cons _ _ _ 0 0 _ (by rw [List.length_cons]; omega)]
      rw [show (0 :: List.replicate (2 ^ 32) (0 : Nat))
          = List.replicate (2 ^ 32 + 1) 0 from (List.replicate_succ 0 (2 ^ 32)).symm]
      rw [hb0, hb1]
      rw [fromSlice_replicate_zero, chksum_zero]
      rw [blockSigsAux_cons _ _ _ 1 0 [] (by rw [hXlen]; omega)]
      rw [show ([0] : List Nat).take (2 ^ 32) = [0] from
        List.take_of_length_le (by norm_num)]
      rw [show ([0] : List Nat).drop (2 ^ 32) = [] from
        List.drop_eq_nil_of_le (by norm_num)]
      rw [blockSigsAux_nil]
      rfl
    have hmin1 : min (2 ^ 32) ((List.replicate (2 ^ 32 + 1) (0 : Nat)).length - 0)
        = 2 ^ 32 := by rw [hXlen]; omega
    have hwin1 : ((List.replicate (2 ^ 32 + 1) (0 : Nat)).drop 0).take
        (min (2 ^ 32) ((List.replicate (2 ^ 32 + 1) (0 : Nat)).length - 0))
        = List.replicate (2 ^ 32) 0 := by
      rw [List.drop_zero, hmin1, hb0]
    have hfind1 : (sigsGet [(0, (⟨0, List.replicate (2 ^ 32) 0⟩ : SigEntry)),
          (0, ⟨1, [0]⟩)]
        (Rolling.fromSlice (((List.replicate (2 ^ 32 + 1) (0 : Nat)).drop 0).take
          (min (2 ^ 32) ((List.replicate (2 ^ 32 + 1) (0 : Nat)).length - 0)))).chksum).find?
        (fun c => c.strongHash
          == (fun l : List Nat => l) (((List.replicate (2 ^ 32 + 1) (0 : Nat)).drop 0).take
            (min (2 ^ 32) ((List.replicate (2 ^ 32 + 1) (0 : Nat)).length - 0))))
        = some ⟨0, List.replicate (2 ^ 32) 0⟩ := by
      rw [hwin1, fromSlice_replicate_zero, chksum_zero]
      unfold sigsGet
      rw [List.filter_cons_of_pos (by rfl), List.filter_cons_of_pos (by rfl)]
      simp only [List.map_cons]
      exact List.find?_cons_of_pos _ (beq_self_eq_true _)
    have hmin2 : min (2 ^ 32)
        ((List.replicate (2 ^ 32 + 1) (0 : Nat)).length - 2 ^ 32) = 1 := by
      rw [hXlen]; omega
    have hwin2 : ((List.replicate (2 ^ 32 + 1) (0 : Nat)).drop (2 ^ 32)).take
        (min (2 ^ 32) ((List.replicate (2 ^ 32 + 1) (0 : Nat)).length - 2 ^ 32))
        = [0] := by
      rw [hmin2, hb1]
      rfl
    have hbeqfalse : ((List.replicate (2 ^ 32) (0 : Nat) : List Nat) == [0]) = false := by
      rw [beq_eq_false_iff_ne]
      intro h
      have := congrArg List.length h
      rw [List.length_replicate] at this
      norm_num at this
    have hfind2 : (sigsGet [(0, (⟨0, List.replicate (2 ^ 32) 0⟩ : SigEntry)),
          (0, ⟨1, [0]⟩)]
        (Rolling.fromSlice (((List.replicate (2 ^ 32 + 1) (0 : Nat)).drop (2 ^ 32)).take
          (min (2 ^ 32)
            ((List.replicate (2 ^ 32 + 1) (0 : Nat)).length - 2 ^ 32)))).chksum).find?
        (fun c => c.strongHash
          == (fun l : List Nat => l)
            (((List.replicate (2 ^ 32 + 1) (0 : Nat)).drop (2 ^ 32)).take
              (min (2 ^ 32)
                ((List.replicate (2 ^ 32 + 1) (0 : Nat)).length - 2 ^ 32))))
        = some ⟨1, [0]⟩ := by
      rw [hwin2]
      rw [show Rolling.fromSlice ([0] : List Nat) = ⟨0, 0, 1⟩ from rfl, chksum_zero]
      unfold sigsGet
      rw [List.filter_cons_of_pos (by rfl), List.filter_cons_of_pos (by rfl)]
      simp only [List.map_cons]
      have hnotpred : ¬ ((fun c : SigEntry => c.strongHash
          == ([0] : List Nat)) ⟨0, List.replicate (2 ^ 32) 0⟩ = true) := by
        intro hcontra
        have hh : (List.replicate (2 ^ 32) (0 : Nat) == [0]) = true := hcontra
        rw [hbeqfalse] at hh
        cases hh
      rw [@List.find?_cons_of_neg SigEntry
        (fun c : SigEntry => c.strongHash == ([0] : List Nat))
        ⟨0, List.replicate (2 ^ 32) 0⟩ _ hnotpred]
      exact List.find?_cons_of_pos _ (by rfl)
    have henc : encodeLoopAux (fun l : List Nat => l)
        [(0, ⟨0, List.replicate (2 ^ 32) 0⟩), (0, ⟨1, [0]⟩)] (2 ^ 32)
        (List.replicate (2 ^ 32 + 1) 0)
        (List.replicate (2 ^ 32 + 1) (0 : Nat)).length 0 [] []
        = ([1, 0, 0, 0, 0, 0, 0, 0, 0, 0, 0, 0, 0,
            1, 0, 0, 0, 0, 1, 0, 0, 0, 1, 0, 0, 0], []) := by
      rw [encodeLoopAux_match_step (fun l : List Nat => l)
        [(0, ⟨0, List.replicate (2 ^ 32) 0⟩), (0, ⟨1, [0]⟩)] (2 ^ 32)
        (List.replicate (2 ^ 32 + 1) 0)
        (List.replicate (2 ^ 32 + 1) (0 : Nat)).length 0 [] []
        ⟨0, List.replicate (2 ^ 32) 0⟩
        (by rw [hXlen]; norm_num) (by rw [hXlen]; norm_num) (by norm_num) hfind1]
      rw [hmin1, Nat.zero_add]
      rw [encodeLoopAux_match_step (fun l : List Nat => l)
        [(0, ⟨0, List.replicate (2 ^ 32) 0⟩), (0, ⟨1, [0]⟩)] (2 ^ 32)
        (List.replicate (2 ^ 32 + 1) 0)
        ((List.replicate (2 ^ 32 + 1) (0 : Nat)).length - 1) (2 ^ 32) _ []
        ⟨1, [0]⟩
        (by rw [hXlen]; norm_num) (by rw [hXlen]; norm_num) (by norm_num) hfind2]
      rw [hmin2]
      rw [encodeLoopAux_exit _ _ _ _ _ _ _ _ (by rw [hXlen]; omega)]
      rfl
    simp only [create_patch_bytes,
      if_neg (show ¬ (2 ^ 32 : Nat) = 0 from by norm_num), hsigs, henc]
    rfl
  · rw [apply_patch_bytes_eq_run]
    rw [show ([1, 0, 0, 0, 0, 0, 0, 0, 0, 0, 0, 0, 0,
          1, 0, 0, 0, 0, 1, 0, 0, 0, 1, 0, 0, 0] : List Nat)
        = 1 :: (leBytes 8 0 ++ (leBytes 4 0
            ++ (1 :: (leBytes 8 (2 ^ 32) ++ (leBytes 4 1 ++ []))))) from rfl]
    rw [applyRun_copy _ _ _ 0 0 (by norm_num) (by norm_num) (by omega)]
    rw [applyRun_copy _ _ _ (2 ^ 32) 1 (by norm_num) (by norm_num)
      (by rw [hXlen])]
    rw [applyRun_nil]
    rw [hb1, List.take_zero]
    rfl
  · intro h
    have := congrArg List.length h
    rw [List.length_replicate] at this
    norm_num at this

/-- Record-level shape of an encoder-produced patch: a sequence of literal
records whose payload length is between 1 and block_size, and copy
records. -/
inductive RecordsOk (bs : Nat) : List Nat → Prop where
  | nil : RecordsOk bs []
  | lit (data rest : List Nat) (h1 : 1 ≤ data.length) (h2 : data.length ≤ bs)
      (hr : RecordsOk bs rest) :
      RecordsOk bs (0 :: (leBytes 4 data.length ++ (data ++ rest)))
  | copy (off len : Nat) (rest : List Nat) (hr : RecordsOk bs rest) :
      RecordsOk bs (1 :: (leBytes 8 off ++ (leBytes 4 len ++ rest)))

theorem recordsOk_flush (bs : Nat) (pending : List Nat) (h2 : pending.length ≤ bs) :
    RecordsOk bs (flushChunk pending) := by
  by_cases hp : pending = []
  · rw [hp]
    exact RecordsOk.nil
  · have hshape : flushChunk pending
        = 0 :: (leBytes 4 pending.length ++ (pending ++ [])) := by
      rw [flushChunk, if_neg hp]
      simp
    rw [hshape]
    exact RecordsOk.lit pending [] (by
      have := List.length_pos.mpr hp
      omega) h2 RecordsOk.nil

theorem encodeLoop_pending_lt (H : List Nat → List Nat) (sigs : List (Nat × SigEntry))
    (bs : Nat) (new : List Nat) (hbs : 1 ≤ bs) :
    ∀ (fuel pos : Nat) (out pending : List Nat), pending.length < bs →
      ((encodeLoopAux H sigs bs new fuel pos out pending).2).length < bs := by
  intro fuel
  induction fuel with
  | zero => intro pos out pending hp; exact hp
  | succ f ih =>
      intro pos out pending hpend
      by_cases hp : pos < new.length
      · simp only [encodeLoopAux, if_pos hp]
        rw [if_neg (by omega), if_pos (by omega)]
        cases hfind : (sigsGet sigs
            (Rolling.fromSlice ((new.drop pos).take (min bs (new.length - pos)))).chksum).find?
            (fun e => e.strongHash
              == H ((new.drop pos).take (min bs (new.length - pos)))) with
        | some e =>
            simp only [hfind]
            exact ih _ _ _ (by simp only [List.length_nil]; omega)
        | none =>
            simp only [hfind]
            by_cases hfl : bs ≤ pending.length + 1
            · rw [if_pos hfl]
              exact ih _ _ _ (by simp only [List.length_nil]; omega)
            · rw [if_neg hfl]
              refine ih _ _ _ ?_
              simp only [List.length_append, List.length_singleton]
              omega
      · simp only [encodeLoopAux, if_neg hp]
        exact hpend

theorem encodeLoop_records (H : List Nat → List Nat) (sigs : List (Nat × SigEntry))
    (bs : Nat) (new : List Nat) (hbs : 1 ≤ bs) :
    ∀ (fuel pos : Nat) (pending : List Nat), pending.length < bs →
      RecordsOk bs ((encodeLoopAux H sigs bs new fuel pos [] pending).1
        ++ flushChunk (encodeLoopAux H sigs bs new fuel pos [] pending).2) := by
  intro fuel
  induction fuel with
  | zero =>
      intro pos pending hpend
      simp only [encodeLoopAux, List.nil_append]
      exact recordsOk_flush bs pending (by omega)
  | succ f ih =>
      intro pos pending hpend
      by_cases hp : pos < new.length
      · simp only [encodeLoopAux, if_pos hp]
        rw [if_neg (by omega), if_pos (by omega)]
        cases hfind : (sigsGet sigs
            (Rolling.fromSlice ((new.drop pos).take (min bs (new.length - pos)))).chksum).find?
            (fun e => e.strongHash
              == H ((new.drop pos).take (min bs (new.length - pos)))) with
        | some e =>
            simp only [hfind]
            rw [(encodeLoopAux_append H sigs bs new f _ _ _).1,
              (encodeLoopAux_append H sigs bs new f _ _ _).2]
            simp only [List.nil_append, List.append_assoc, List.cons_append]
            by_cases hpe : pending = []
            · rw [hpe]
              simp only [flushChunk, if_pos rfl, List.nil_append]
              exact RecordsOk.copy _ _ _ (ih _ [] (by simp only [List.length_nil]; omega))
            · have hshape : flushChunk pending
                  ++ (1 :: (leBytes 8 (e.blockIndex * bs)
                    ++ (leBytes 4 (min bs (new.length - pos))
                      ++ ((encodeLoopAux H sigs bs new f
                            (pos + min bs (new.length - pos)) [] []).1
                        ++ flushChunk (encodeLoopAux H sigs bs new f
                            (pos + min bs (new.length - pos)) [] []).2))))
                  = 0 :: (leBytes 4 pending.length ++ (pending
                      ++ (1 :: (leBytes 8 (e.blockIndex * bs)
                        ++ (leBytes 4 (min bs (new.length - pos))
                          ++ ((encodeLoopAux H sigs bs new f
                                (pos + min bs (new.length - pos)) [] []).1
                            ++ flushChunk (encodeLoopAux H sigs bs new f
                                (pos + min bs (new.length - pos)) [] []).2)))))) := by
                rw [flushChunk, if_neg hpe]
                simp [List.append_assoc]
              rw [hshape]
              refine RecordsOk.lit _ _ (by
                have := List.length_pos.mpr hpe
                omega) (by omega) ?_
              exact RecordsOk.copy _ _ _ (ih _ [] (by simp only [List.length_nil]; omega))
        | none =>
            simp only [hfind]
            by_cases hfl : bs ≤ pending.length + 1
            · rw [if_pos hfl]
              rw [(encodeLoopAux_append H sigs bs new f _ _ _).1,
                (encodeLoopAux_append H sigs bs new f _ _ _).2]
              simp only [List.nil_append, List.append_assoc]
              have hpe : pending ++ [new.getD pos 0] ≠ [] := by simp
              have hshape : flushChunk (pending ++ [new.getD pos 0])
                  ++ ((encodeLoopAux H sigs bs new f (pos + 1) [] []).1
                    ++ flushChunk (encodeLoopAux H sigs bs new f (pos + 1) [] []).2)
                  = 0 :: (leBytes 4 (pending ++ [new.getD pos 0]).length
                      ++ ((pending ++ [new.getD pos 0])
                        ++ ((encodeLoopAux H sigs bs new f (pos + 1) [] []).1
                          ++ flushChunk (encodeLoopAux H sigs bs new f
                              (pos + 1) [] []).2))) := by
                rw [flushChunk, if_neg hpe]
                simp [List.append_assoc]
              rw [hshape]
              refine RecordsOk.lit _ _ (by simp) (by
                simp only [List.length_append, List.length_singleton]
                omega) ?_
              exact ih _ [] (by simp only [List.length_nil]; omega)
            · rw [if_neg hfl]
              refine ih _ _ ?_
              simp only [List.length_append, List.length_singleton]
              omega
      · simp only [encodeLoopAux, if_neg hp, List.nil_append]
        exact recordsOk_flush bs pending (by omega)

/-- C8: with a positive block size, the pending literal buffer is strictly
below block_size at every iteration boundary of the encoder loop (it is
flushed the moment it reaches block_size), and every patch the encoder
produces parses into records in which each literal payload has length
between 1 and block_size. -/
theorem c8_literal_flush_bounds (H : List Nat → List Nat) (old new : List Nat)
    (bs : Nat) (hbs : 1 ≤ bs) :
    (∀ (fuel pos : Nat) (out pending : List Nat), pending.length < bs →
      ((encodeLoopAux H (build_signatures H old bs) bs new fuel pos out pending).2).length
        < bs) ∧
    (∀ p, create_patch_bytes H old new bs = .ok p → RecordsOk bs p) := by
  constructor
  · exact encodeLoop_pending_lt H (build_signatures H old bs) bs new hbs
  · intro p hp
    simp only [create_patch_bytes, if_neg (show ¬ bs = 0 from by omega)] at hp
    injection hp with hp2
    rw [← hp2]
    exact encodeLoop_records H (build_signatures H old bs) bs new hbs
      new.length 0 [] (by simp only [List.length_nil]; omega)

theorem c8_literal_flush_bounds_witness : RecordsOk 1 [0, 1, 0, 0, 0, 5] :=
  (c8_literal_flush_bounds (fun l => l) [] [5] 1 (by norm_num)).2
    [0, 1, 0, 0, 0, 5] rfl

/-- C6: when some candidate under the current window's weak checksum has a
strong hash equal to the window's, the entry the encoder takes is the one
found first in stored order, which has the lowest block index among all
matching candidates (the stored order is ascending block index); on that
match the loop flushes the pending literals, emits the copy record with
offset block_index * block_size and length window_len, and advances the
cursor by window_len. -/
theorem c6_first_match_lowest_index (H : List Nat → List Nat) (old new : List Nat)
    (bs fuel pos : Nat) (out pending : List Nat) (e : SigEntry)
    (hbs : 1 ≤ bs) (hpos : pos < new.length)
    (hfind : (sigsGet (build_signatures H old bs)
        (Rolling.fromSlice ((new.drop pos).take (min bs (new.length - pos)))).chksum).find?
        (fun c => c.strongHash == H ((new.drop pos).take (min bs (new.length - pos))))
      = some e) :
    e.strongHash = H ((new.drop pos).take (min bs (new.length - pos))) ∧
    (∀ c ∈ sigsGet (build_signatures H old bs)
        (Rolling.fromSlice ((new.drop pos).take (min bs (new.length - pos)))).chksum,
      c.strongHash = H ((new.drop pos).take (min bs (new.length - pos))) →
      e.blockIndex ≤ c.blockIndex) ∧
    encodeLoopAux H (build_signatures H old bs) bs new (fuel + 1) pos out pending
      = encodeLoopAux H (build_signatures H old bs) bs new fuel
          (pos + min bs (new.length - pos))
          (out ++ flushChunk pending ++
            1 :: (leBytes 8 (e.blockIndex * bs) ++ leBytes 4 (min bs (new.length - pos))))
          [] := by
  refine ⟨by simpa using List.find?_some hfind, ?_, ?_⟩
  · intro c hc hceq
    exact find?_first_min _ _ e (sigsGet_pairwise H old bs _) hfind c hc
      (by simpa using hceq)
  · have h := encodeLoopAux_match_step H (build_signatures H old bs) bs new
      (fuel + 1) pos out pending e (by omega) hpos hbs hfind
    simpa using h

theorem c6_first_match_lowest_index_witness :
    (1 : Nat) ≤ 1 ∧ (0 : Nat) < ([5] : List Nat).length ∧
    ((⟨0, [5]⟩ : SigEntry).strongHash
        = (fun l : List Nat => l) ((([5] : List Nat).drop 0).take
          (min 1 (([5] : List Nat).length - 0))) ∧
     (∀ c ∈ sigsGet (build_signatures (fun l : List Nat => l) [5] 1)
          (Rolling.fromSlice ((([5] : List Nat).drop 0).take
            (min 1 (([5] : List Nat).length - 0)))).chksum,
        c.strongHash = (fun l : List Nat => l) ((([5] : List Nat).drop 0).take
          (min 1 (([5] : List Nat).length - 0))) →
        (⟨0, [5]⟩ : SigEntry).blockIndex ≤ c.blockIndex) ∧
     encodeLoopAux (fun l : List Nat => l)
        (build_signatures (fun l : List Nat => l) [5] 1) 1 [5] (0 + 1) 0 [] []
      = encodeLoopAux (fun l : List Nat => l)
          (build_signatures (fun l : List Nat => l) [5] 1) 1 [5] 0
          (0 + min 1 (([5] : List Nat).length - 0))
          ([] ++ flushChunk [] ++
            1 :: (leBytes 8 ((⟨0, [5]⟩ : SigEntry).blockIndex * 1)
              ++ leBytes 4 (min 1 (([5] : List Nat).length - 0))))
          []) :=
  ⟨by norm_num, by norm_num,
    c6_first_match_lowest_index (fun l => l) [5] [5] 1 0 0 [] [] ⟨0, [5]⟩
      (by norm_num) (by norm_num) rfl⟩

/-- C7: for a final window shorter than block_size, the strong-hash
comparison is over exactly window_len bytes on both sides: the new-side
digest is of the window, whose length is window_len, and any candidate whose
stored digest (the digest of its own old block) matches must, by hash
injectivity, have block contents equal to the window, hence of length
window_len rather than block_size. -/
theorem c7_short_window_hash (H : List Nat → List Nat) (old new : List Nat)
    (bs pos : Nat) (hinj : Function.Injective H) (hbs : 1 ≤ bs)
    (hpos : pos < new.length) (hshort : new.length - pos < bs) :
    ((new.drop pos).take (min bs (new.length - pos))).length = new.length - pos ∧
    min bs (new.length - pos) = new.length - pos ∧
    ∀ c ∈ sigsGet (build_signatures H old bs)
        (Rolling.fromSlice ((new.drop pos).take (min bs (new.length - pos)))).chksum,
      c.strongHash = H ((new.drop pos).take (min bs (new.length - pos))) →
      (old.drop (c.blockIndex * bs)).take bs
        = (new.drop pos).take (min bs (new.length - pos)) ∧
      ((old.drop (c.blockIndex * bs)).take bs).length = new.length - pos := by
  have hwl : ((new.drop pos).take (min bs (new.length - pos))).length
      = new.length - pos := by
    simp only [List.length_take, List.length_drop]
    omega
  refine ⟨hwl, by omega, ?_⟩
  intro c hc hceq
  have hstrong := sigsGet_strong H old bs _ c hc
  have heq : (old.drop (c.blockIndex * bs)).take bs
      = (new.drop pos).take (min bs (new.length - pos)) :=
    hinj (by rw [← hstrong.1, hceq])
  exact ⟨heq, by rw [heq, hwl]⟩

theorem c7_short_window_hash_witness :
    Function.Injective (fun l : List Nat => l) ∧
    ((([9, 3] : List Nat).drop 1).take
        (min 2 (([9, 3] : List Nat).length - 1))).length
      = ([9, 3] : List Nat).length - 1 ∧
    min 2 (([9, 3] : List Nat).length - 1) = ([9, 3] : List Nat).length - 1 ∧
    ∀ c ∈ sigsGet (build_signatures (fun l : List Nat => l) [3] 2)
        (Rolling.fromSlice ((([9, 3] : List Nat).drop 1).take
          (min 2 (([9, 3] : List Nat).length - 1)))).chksum,
      c.strongHash = (fun l : List Nat => l) ((([9, 3] : List Nat).drop 1).take
        (min 2 (([9, 3] : List Nat).length - 1))) →
      (([3] : List Nat).drop (c.blockIndex * 2)).take 2
        = (([9, 3] : List Nat).drop 1).take (min 2 (([9, 3] : List Nat).length - 1)) ∧
      ((([3] : List Nat).drop (c.blockIndex * 2)).take 2).length
        = ([9, 3] : List Nat).length - 1 :=
  ⟨fun _ _ h => h,
    c7_short_window_hash (fun l => l) [3] [9, 3] 2 1 (fun _ _ h => h)
      (by norm_num) (by norm_num) (by norm_num)⟩

end XDelta
